import Mathlib

/-!
Verification development for the tiny-xvl geometric core.

The determinant kernel is embedded from `src/vxl/vnl/vnl_det.h`: the
row-pointer primitives `vnl_det` (2x2, 3x3, 4x4) and the
`vnl_matrix_fixed` facade overloads (1x1 through 4x4).  The C++ kernel is
templated over the scalar `T` and instantiated at `double` by the tests;
we embed the scalar as `ℚ`, exact real-valued arithmetic on representable
coordinates.

The hull builder (`vgl_convex_hull`) and polygon containment
(`vgl_polygon::contains`) have no source file in the repository (only the
test `src/vxl/vgl/tests/test_convex.cpp` calls them), so they are
modelled from the specification (spec sections 4.2 and 4.3).
-/

/-- Embedding of `vnl_det(T const *row0, T const *row1)` from
`vnl_det.h`: `row0[0]*row1[1] - row0[1]*row1[0]`.  A row pointer into a
length-2 row is embedded as a function `Fin 2 → ℚ`. -/
def vnl_det2 (row0 row1 : Fin 2 → ℚ) : ℚ :=
  row0 0 * row1 1 - row0 1 * row1 0

/-- Embedding of `vnl_det(T const *row0, T const *row1, T const *row2)`
from `vnl_det.h`: the six-term expansion, term for term. -/
def vnl_det3 (row0 row1 row2 : Fin 3 → ℚ) : ℚ :=
    row0 0 * row1 1 * row2 2
  - row0 0 * row2 1 * row1 2
  - row1 0 * row0 1 * row2 2
  + row1 0 * row2 1 * row0 2
  + row2 0 * row0 1 * row1 2
  - row2 0 * row1 1 * row0 2

/-- Embedding of the 4x4 `vnl_det` from `vnl_det.h`: the 24-term
expansion, term for term in source order. -/
def vnl_det4 (row0 row1 row2 row3 : Fin 4 → ℚ) : ℚ :=
    row0 0 * row1 1 * row2 2 * row3 3
  - row0 0 * row1 1 * row3 2 * row2 3
  - row0 0 * row2 1 * row1 2 * row3 3
  + row0 0 * row2 1 * row3 2 * row1 3
  + row0 0 * row3 1 * row1 2 * row2 3
  - row0 0 * row3 1 * row2 2 * row1 3
  - row1 0 * row0 1 * row2 2 * row3 3
  + row1 0 * row0 1 * row3 2 * row2 3
  + row1 0 * row2 1 * row0 2 * row3 3
  - row1 0 * row2 1 * row3 2 * row0 3
  - row1 0 * row3 1 * row0 2 * row2 3
  + row1 0 * row3 1 * row2 2 * row0 3
  + row2 0 * row0 1 * row1 2 * row3 3
  - row2 0 * row0 1 * row3 2 * row1 3
  - row2 0 * row1 1 * row0 2 * row3 3
  + row2 0 * row1 1 * row3 2 * row0 3
  + row2 0 * row3 1 * row0 2 * row1 3
  - row2 0 * row3 1 * row1 2 * row0 3
  - row3 0 * row0 1 * row1 2 * row2 3
  + row3 0 * row0 1 * row2 2 * row1 3
  + row3 0 * row1 1 * row0 2 * row2 3
  - row3 0 * row1 1 * row2 2 * row0 3
  - row3 0 * row2 1 * row0 2 * row1 3
  + row3 0 * row2 1 * row1 2 * row0 3

/-- Embedding of `vnl_matrix_fixed<T,n,m>` at the abstraction level the
determinant facade uses: `operator[] r` returns (a pointer to) row `r`,
and `m[i][j]` is the element in row `i`, column `j` of the row-major
storage.  We embed the matrix by its row map. -/
def vnl_matrix_fixed (n m : ℕ) : Type := Fin n → Fin m → ℚ

/-- Embedding of `vnl_det(vnl_matrix_fixed<T,1,1> const& m) = m[0][0]`. -/
def vnl_det_fixed1 (m : vnl_matrix_fixed 1 1) : ℚ := m 0 0

/-- Embedding of `vnl_det(vnl_matrix_fixed<T,2,2> const& m) = vnl_det(m[0],m[1])`. -/
def vnl_det_fixed2 (m : vnl_matrix_fixed 2 2) : ℚ := vnl_det2 (m 0) (m 1)

/-- Embedding of `vnl_det(vnl_matrix_fixed<T,3,3> const& m) = vnl_det(m[0],m[1],m[2])`. -/
def vnl_det_fixed3 (m : vnl_matrix_fixed 3 3) : ℚ := vnl_det3 (m 0) (m 1) (m 2)

/-- Embedding of `vnl_det(vnl_matrix_fixed<T,4,4> const& m) = vnl_det(m[0],m[1],m[2],m[3])`. -/
def vnl_det_fixed4 (m : vnl_matrix_fixed 4 4) : ℚ := vnl_det4 (m 0) (m 1) (m 2) (m 3)

/-- C1: the 2x2 determinant primitive returns exactly
`r0[0]*r1[1] - r0[1]*r1[0]` on every pair of length-2 rows. -/
theorem vnl_det2_formula (row0 row1 : Fin 2 → ℚ) :
    vnl_det2 row0 row1 = row0 0 * row1 1 - row0 1 * row1 0 := rfl

/-- C2: on every three length-3 rows, the 3x3 primitive returns the
determinant of the 3x3 matrix formed by those rows (the full six-term
cofactor expansion); in particular it returns 1 on the identity rows. -/
theorem vnl_det3_is_det :
    (∀ row0 row1 row2 : Fin 3 → ℚ,
      vnl_det3 row0 row1 row2 = Matrix.det (Matrix.of ![row0, row1, row2])) ∧
    vnl_det3 ![1, 0, 0] ![0, 1, 0] ![0, 0, 1] = 1 := by
  constructor
  · intro row0 row1 row2
    rw [Matrix.det_fin_three]
    simp [vnl_det3, Matrix.of_apply]
    ring
  · with_unfolding_all decide

/-- C7: the 2x2 primitive is antisymmetric under row swap, and takes the
values 1 and -1 on the identity rows and the swapped identity rows. -/
theorem vnl_det2_antisymm :
    (∀ a b : Fin 2 → ℚ, vnl_det2 a b = -vnl_det2 b a) ∧
    vnl_det2 ![1, 0] ![0, 1] = 1 ∧ vnl_det2 ![0, 1] ![1, 0] = -1 := by
  refine ⟨fun a b => ?_, by with_unfolding_all decide, by with_unfolding_all decide⟩
  simp only [vnl_det2]
  ring

/-- C10: the 1x1 fixed-matrix determinant overload exists and returns the
single element `m[0][0]`. -/
theorem vnl_det_fixed1_eq (m : vnl_matrix_fixed 1 1) :
    vnl_det_fixed1 m = m 0 0 := rfl

/-- C9: the determinant kernel is deterministic: at every arity, two
calls on equal row contents return equal results.  (Absence of mutation
and of other observable effects holds by construction of the embedding:
the kernel is a pure function of its row values.) -/
theorem vnl_det_deterministic :
    (∀ r0 r1 s0 s1 : Fin 2 → ℚ, (∀ i, r0 i = s0 i) → (∀ i, r1 i = s1 i) →
      vnl_det2 r0 r1 = vnl_det2 s0 s1) ∧
    (∀ r0 r1 r2 s0 s1 s2 : Fin 3 → ℚ,
      (∀ i, r0 i = s0 i) → (∀ i, r1 i = s1 i) → (∀ i, r2 i = s2 i) →
      vnl_det3 r0 r1 r2 = vnl_det3 s0 s1 s2) ∧
    (∀ r0 r1 r2 r3 s0 s1 s2 s3 : Fin 4 → ℚ,
      (∀ i, r0 i = s0 i) → (∀ i, r1 i = s1 i) → (∀ i, r2 i = s2 i) →
      (∀ i, r3 i = s3 i) →
      vnl_det4 r0 r1 r2 r3 = vnl_det4 s0 s1 s2 s3) := by
  refine ⟨fun r0 r1 s0 s1 h0 h1 => ?_, fun r0 r1 r2 s0 s1 s2 h0 h1 h2 => ?_,
    fun r0 r1 r2 r3 s0 s1 s2 s3 h0 h1 h2 h3 => ?_⟩
  · simp only [vnl_det2, h0, h1]
  · simp only [vnl_det3, h0, h1, h2]
  · simp only [vnl_det4, h0, h1, h2, h3]

/-- Witness for C9: concrete rows with equal contents give equal
determinants at every arity. -/
theorem vnl_det_deterministic_witness :
    vnl_det2 ![1, 2] ![3, 4] = vnl_det2 ![1, 2] ![3, 4] ∧
    vnl_det3 ![1, 2, 3] ![4, 5, 6] ![7, 8, 9] =
      vnl_det3 ![1, 2, 3] ![4, 5, 6] ![7, 8, 9] ∧
    vnl_det4 ![1, 2, 3, 4] ![5, 6, 7, 8] ![9, 10, 11, 12] ![13, 14, 15, 16] =
      vnl_det4 ![1, 2, 3, 4] ![5, 6, 7, 8] ![9, 10, 11, 12] ![13, 14, 15, 16] :=
  ⟨vnl_det_deterministic.1 _ _ _ _ (fun _ => rfl) (fun _ => rfl),
   vnl_det_deterministic.2.1 _ _ _ _ _ _ (fun _ => rfl) (fun _ => rfl) (fun _ => rfl),
   vnl_det_deterministic.2.2 _ _ _ _ _ _ _ _
     (fun _ => rfl) (fun _ => rfl) (fun _ => rfl) (fun _ => rfl)⟩

/-- Cofactor expansion of a general 4x4 determinant into its 24 terms. -/
theorem det_fin_four_expand (M : Matrix (Fin 4) (Fin 4) ℚ) :
    M.det =
      M 0 0 * M 1 1 * M 2 2 * M 3 3
    - M 0 0 * M 1 1 * M 3 2 * M 2 3
    - M 0 0 * M 2 1 * M 1 2 * M 3 3
    + M 0 0 * M 2 1 * M 3 2 * M 1 3
    + M 0 0 * M 3 1 * M 1 2 * M 2 3
    - M 0 0 * M 3 1 * M 2 2 * M 1 3
    - M 1 0 * M 0 1 * M 2 2 * M 3 3
    + M 1 0 * M 0 1 * M 3 2 * M 2 3
    + M 1 0 * M 2 1 * M 0 2 * M 3 3
    - M 1 0 * M 2 1 * M 3 2 * M 0 3
    - M 1 0 * M 3 1 * M 0 2 * M 2 3
    + M 1 0 * M 3 1 * M 2 2 * M 0 3
    + M 2 0 * M 0 1 * M 1 2 * M 3 3
    - M 2 0 * M 0 1 * M 3 2 * M 1 3
    - M 2 0 * M 1 1 * M 0 2 * M 3 3
    + M 2 0 * M 1 1 * M 3 2 * M 0 3
    + M 2 0 * M 3 1 * M 0 2 * M 1 3
    - M 2 0 * M 3 1 * M 1 2 * M 0 3
    - M 3 0 * M 0 1 * M 1 2 * M 2 3
    + M 3 0 * M 0 1 * M 2 2 * M 1 3
    + M 3 0 * M 1 1 * M 0 2 * M 2 3
    - M 3 0 * M 1 1 * M 2 2 * M 0 3
    - M 3 0 * M 2 1 * M 0 2 * M 1 3
    + M 3 0 * M 2 1 * M 1 2 * M 0 3 := by
  simp [Matrix.det_succ_row_zero, Fin.sum_univ_succ, Matrix.submatrix_apply, Fin.succAbove,
    show (Fin.succ 2 : Fin 4) = 3 from rfl, show (Fin.castSucc 2 : Fin 4) = 2 from rfl,
    show (Fin.succ 1 : Fin 4) = 2 from rfl, show (Fin.castSucc 1 : Fin 4) = 1 from rfl,
    Fin.lt_def]
  ring

/-- C8: each fixed-matrix overload of `vnl_det` equals the row-pointer
primitive applied to the matrix rows in order, and that common value is
the determinant of the matrix (closed-form cofactor expansion). -/
theorem vnl_det_fixed_agrees :
    (∀ m : vnl_matrix_fixed 2 2,
      vnl_det_fixed2 m = vnl_det2 (m 0) (m 1) ∧
      vnl_det_fixed2 m = Matrix.det (Matrix.of fun i j => m i j)) ∧
    (∀ m : vnl_matrix_fixed 3 3,
      vnl_det_fixed3 m = vnl_det3 (m 0) (m 1) (m 2) ∧
      vnl_det_fixed3 m = Matrix.det (Matrix.of fun i j => m i j)) ∧
    (∀ m : vnl_matrix_fixed 4 4,
      vnl_det_fixed4 m = vnl_det4 (m 0) (m 1) (m 2) (m 3) ∧
      vnl_det_fixed4 m = Matrix.det (Matrix.of fun i j => m i j)) := by
  refine ⟨fun m => ⟨rfl, ?_⟩, fun m => ⟨rfl, ?_⟩, fun m => ⟨rfl, ?_⟩⟩
  · rw [Matrix.det_fin_two]
    simp only [vnl_det_fixed2, vnl_det2, Matrix.of_apply]
  · rw [Matrix.det_fin_three]
    simp only [vnl_det_fixed3, vnl_det3, Matrix.of_apply]
    ring
  · rw [det_fin_four_expand]
    simp only [vnl_det_fixed4, vnl_det4, Matrix.of_apply]

/-- A 2D point: an immutable pair of exact real-valued (rational)
coordinates, per the spec data model. -/
abbrev Point : Type := ℚ × ℚ

/-- Modelled from the spec (section 4.1, the hull builder and its
containment test have no source under the repository): the derived
orientation predicate, the 2x2 determinant of the vectors `(b-a)` and
`(c-a)`, computed with the kernel primitive `vnl_det2`. -/
def orientation (a b c : Point) : ℚ :=
  vnl_det2 ![b.1 - a.1, b.2 - a.2] ![c.1 - a.1, c.2 - a.2]

/-- Modelled from the spec (section 4.2 step 1): the sort order on
points, x ascending with ties broken by y ascending. -/
def ptLE (p q : Point) : Prop :=
  p.1 < q.1 ∨ (p.1 = q.1 ∧ p.2 ≤ q.2)

instance : DecidableRel ptLE := fun p q => by
  unfold ptLE
  exact inferInstance

instance : IsTrans Point ptLE := by
  constructor
  intro a b c hab hbc
  rcases hab with h1 | ⟨h1, h2⟩ <;> rcases hbc with h3 | ⟨h3, h4⟩
  · exact Or.inl (lt_trans h1 h3)
  · exact Or.inl (h3 ▸ h1)
  · exact Or.inl (h1 ▸ h3)
  · exact Or.inr ⟨h1.trans h3, le_trans h2 h4⟩

instance : IsTotal Point ptLE := by
  constructor
  intro a b
  rcases lt_trichotomy a.1 b.1 with h | h | h
  · exact Or.inl (Or.inl h)
  · rcases le_total a.2 b.2 with h2 | h2
    · exact Or.inl (Or.inr ⟨h, h2⟩)
    · exact Or.inr (Or.inr ⟨h.symm, h2⟩)
  · exact Or.inr (Or.inl h)

instance : IsAntisymm Point ptLE := by
  constructor
  intro a b hab hba
  rcases hab with h1 | ⟨h1, h2⟩ <;> rcases hba with h3 | ⟨h3, h4⟩
  · exact absurd h3 (not_lt_of_lt h1)
  · exact absurd h1 (h3 ▸ lt_irrefl _)
  · exact absurd h3 (h1 ▸ lt_irrefl _)
  · exact Prod.ext h1 (le_antisymm h2 h4)

/-- Modelled from the spec (section 4.2 step 1): copy the input points
and sort them by x ascending, ties broken by y ascending. -/
def sortPoints (pts : List Point) : List Point :=
  List.insertionSort ptLE pts

/-- Modelled from the spec (section 4.2 steps 2-3): the chain step.  The
stack is kept with its top at the head; before appending the candidate
`p`, pop the top while the last two stack points and `p` do not form a
strict left turn (`orientation <= 0`). -/
def chainPush (stack : List Point) (p : Point) : List Point :=
  match stack with
  | b :: a :: rest =>
      if orientation a b p ≤ 0 then chainPush (a :: rest) p
      else p :: b :: a :: rest
  | _ => p :: stack

/-- Modelled from the spec (section 4.2): scan the given point order,
maintaining the chain stack, and return the built chain in scan order. -/
def buildChain (pts : List Point) : List Point :=
  (pts.foldl chainPush []).reverse

/-- Modelled from the spec (section 4.2): `convex_hull`.  Sort by
(x, y); duplicates are absorbed (step 6); 0 or 1 distinct points give
the degenerate hulls of step 5; otherwise concatenate the lower chain
(excluding its last point) with the upper chain (excluding its last
point), giving the closed counter-clockwise ring. -/
def convex_hull (pts : List Point) : List Point :=
  let s := (sortPoints pts).dedup
  if s.length ≤ 1 then s
  else (buildChain s).dropLast ++ (buildChain s.reverse).dropLast

/-- Modelled from the spec (section 4.3): the explicit on-boundary check
against one closed edge, collinearity plus a coordinate-range test, in
exact arithmetic. -/
def onSegment (p a b : Point) : Bool :=
  decide (orientation a b p = 0) &&
  decide (min a.1 b.1 ≤ p.1) && decide (p.1 ≤ max a.1 b.1) &&
  decide (min a.2 b.2 ≤ p.2) && decide (p.2 ≤ max a.2 b.2)

/-- The closed ring's edge list: each vertex paired with its cyclic
successor. -/
def ringEdges (vs : List Point) : List (Point × Point) :=
  vs.zip (vs.rotate 1)

/-- Modelled from the spec (section 4.3): one signed-crossing test of
the horizontal ray from `p` against an edge, with exact arithmetic for
the edge-intersection comparison. -/
def edgeCrosses (p : Point) (e : Point × Point) : Bool :=
  (decide (p.2 < e.1.2) != decide (p.2 < e.2.2)) &&
  decide (p.1 < e.1.1 + (p.2 - e.1.2) * (e.2.1 - e.1.1) / (e.2.2 - e.1.2))

/-- Modelled from the spec (section 4.3): `contains`.  A query point is
contained when the polygon is nonempty and the point either passes the
explicit on-boundary check of some edge (performed first) or the
crossing count over the ring's edges is odd. -/
def contains (vs : List Point) (p : Point) : Bool :=
  if vs.isEmpty then false
  else
    (ringEdges vs).any (fun e => onSegment p e.1 e.2) ||
    (ringEdges vs).foldl (fun parity e => if edgeCrosses p e then !parity else parity) false

/-- The motivating input point sequence from `test_convex.cpp`. -/
def scenarioPts : List Point := [(0, 0), (0, 0), (5, 0), (3, 1), (2, 1), (0, 5)]

/-- C4: on the motivating input the hull's vertex set excludes the two
interior points, while `contains` accepts all five distinct input
points. -/
theorem convex_hull_scenario :
    ((3, 1) ∉ convex_hull scenarioPts ∧ (2, 1) ∉ convex_hull scenarioPts) ∧
    contains (convex_hull scenarioPts) (0, 0) = true ∧
    contains (convex_hull scenarioPts) (5, 0) = true ∧
    contains (convex_hull scenarioPts) (3, 1) = true ∧
    contains (convex_hull scenarioPts) (2, 1) = true ∧
    contains (convex_hull scenarioPts) (0, 5) = true := by
  with_unfolding_all decide

/-- A point of the chain stack after a push is the pushed candidate or a
point that was already on the stack. -/
theorem mem_chainPush : ∀ (stack : List Point) (p x : Point),
    x ∈ chainPush stack p → x = p ∨ x ∈ stack := by
  intro stack
  induction stack with
  | nil =>
      intro p x hx
      simp only [chainPush, List.mem_singleton] at hx
      exact Or.inl hx
  | cons b t ih =>
      intro p x hx
      cases t with
      | nil =>
          simp only [chainPush, List.mem_cons] at hx
          rcases hx with h | h
          · exact Or.inl h
          · exact Or.inr (by simpa using h)
      | cons a rest =>
          simp only [chainPush] at hx
          by_cases hle : orientation a b p ≤ 0
          · rw [if_pos hle] at hx
            rcases ih p x hx with h | h
            · exact Or.inl h
            · exact Or.inr (List.mem_cons_of_mem _ h)
          · rw [if_neg hle] at hx
            rcases List.mem_cons.1 hx with h | h
            · exact Or.inl h
            · exact Or.inr h

/-- A point of the finished chain stack came from the initial stack or
from the scanned points. -/
theorem mem_foldl_chainPush : ∀ (l acc : List Point) (x : Point),
    x ∈ l.foldl chainPush acc → x ∈ acc ∨ x ∈ l := by
  intro l
  induction l with
  | nil =>
      intro acc x hx
      exact Or.inl hx
  | cons p t ih =>
      intro acc x hx
      rcases ih (chainPush acc p) x hx with h | h
      · rcases mem_chainPush acc p x h with h1 | h1
        · exact Or.inr (by simp [h1])
        · exact Or.inl h1
      · exact Or.inr (List.mem_cons_of_mem _ h)

/-- Every point of a built chain is one of the scanned points. -/
theorem mem_buildChain (l : List Point) (x : Point) (hx : x ∈ buildChain l) :
    x ∈ l := by
  rw [buildChain, List.mem_reverse] at hx
  rcases mem_foldl_chainPush l [] x hx with h | h
  · exact absurd h (List.not_mem_nil x)
  · exact h

/-- C5: `convex_hull` is a total function of the input sequence (by
construction of the model) and on every finite input, including the
empty one and duplicate-heavy or collinear ones, it returns a
well-defined polygon: every vertex of the result is drawn from the
input. -/
theorem convex_hull_total (pts : List Point) :
    ∀ v ∈ convex_hull pts, v ∈ pts := by
  intro v hv
  have hsort : ∀ x : Point, x ∈ (sortPoints pts).dedup → x ∈ pts := by
    intro x hx
    have hx2 : x ∈ sortPoints pts := List.mem_dedup.1 hx
    exact (List.perm_insertionSort ptLE pts).mem_iff.1 hx2
  simp only [convex_hull] at hv
  by_cases hlen : ((sortPoints pts).dedup).length ≤ 1
  · rw [if_pos hlen] at hv
    exact hsort v hv
  · rw [if_neg hlen] at hv
    rcases List.mem_append.1 hv with h | h
    · exact hsort v (mem_buildChain _ v ((List.dropLast_sublist _).subset h))
    · have h2 := mem_buildChain _ v ((List.dropLast_sublist _).subset h)
      exact hsort v (List.mem_reverse.1 h2)

/-- Witness for C5: the hull vertex (0, 5) of the motivating input is
indeed one of the input points. -/
theorem convex_hull_total_witness : ((0, 5) : Point) ∈ scenarioPts :=
  convex_hull_total scenarioPts (0, 5) (by with_unfolding_all decide)

/-- C6: permuting the input sequence leaves the hull unchanged — the
very same vertex list, hence the same vertex set and the same
rotational orientation. -/
theorem convex_hull_perm_invariant (pts pts' : List Point) (h : pts.Perm pts') :
    convex_hull pts = convex_hull pts' := by
  have hperm : List.Perm (List.insertionSort ptLE pts) (List.insertionSort ptLE pts') :=
    (List.perm_insertionSort ptLE pts).trans
      (h.trans (List.perm_insertionSort ptLE pts').symm)
  have hs : sortPoints pts = sortPoints pts' :=
    List.eq_of_perm_of_sorted hperm
      (List.sorted_insertionSort ptLE pts) (List.sorted_insertionSort ptLE pts')
  simp only [convex_hull, hs]

/-- Witness for C6: a concrete transposed input gives the same hull. -/
theorem convex_hull_perm_invariant_witness :
    convex_hull [(0, 0), (5, 0), (0, 5)] = convex_hull [(0, 5), (0, 0), (5, 0)] :=
  convex_hull_perm_invariant _ _ (by with_unfolding_all decide)

/-- Rotation of a plane vector by +90 degrees (counter-clockwise). -/
def rot90 (v : Point) : Point := (-v.2, v.1)

/-- Euclidean dot product on the plane. -/
def dotP (u v : Point) : ℚ :=
  u.1 * v.1 + u.2 * v.2

/-- The triple `a`, `b`, `c` turns left (counter-clockwise): `c` lies
strictly inside the open half-plane to the left of the directed line
from `a` to `b`, the side the counter-clockwise rotation of the
direction vector points into. -/
def turnsLeft (a b c : Point) : Prop :=
  0 < dotP (rot90 (b - a)) (c - a)

/-- The triple `a`, `b`, `c` turns right (clockwise): `c` lies strictly
in the open half-plane to the right of the directed line from `a` to
`b`. -/
def turnsRight (a b c : Point) : Prop :=
  dotP (rot90 (b - a)) (c - a) < 0

/-- The orientation determinant is the component of `c - a` along the
counter-clockwise normal of `b - a`. -/
theorem orientation_eq_dot (a b c : Point) :
    orientation a b c = dotP (rot90 (b - a)) (c - a) := by
  simp only [orientation, vnl_det2, dotP, rot90, Prod.fst_sub, Prod.snd_sub,
    Matrix.cons_val_zero, Matrix.cons_val_one, Matrix.head_cons]
  ring

/-- The orientation determinant vanishes exactly on collinear triples. -/
theorem orientation_eq_zero_iff_collinear (a b c : Point) :
    orientation a b c = 0 ↔ Collinear ℚ ({a, b, c} : Set Point) := by
  have ho : orientation a b c =
      (b.1 - a.1) * (c.2 - a.2) - (b.2 - a.2) * (c.1 - a.1) := by
    simp only [orientation, vnl_det2, Matrix.cons_val_zero, Matrix.cons_val_one,
      Matrix.head_cons]
  rw [ho]
  constructor
  · intro h
    rw [collinear_iff_of_mem (Set.mem_insert a {b, c})]
    by_cases hba : b = a
    · refine ⟨c - a, ?_⟩
      intro p hp
      simp only [Set.mem_insert_iff, Set.mem_singleton_iff] at hp
      rcases hp with hp | hp | hp
      · exact ⟨0, by simp [hp]⟩
      · exact ⟨0, by simp [hp, hba]⟩
      · exact ⟨1, by simp [hp]⟩
    · refine ⟨b - a, ?_⟩
      intro p hp
      simp only [Set.mem_insert_iff, Set.mem_singleton_iff] at hp
      rcases hp with hp | hp | hp
      · exact ⟨0, by simp [hp]⟩
      · exact ⟨1, by simp [hp]⟩
      · subst hp
        have hne : b.1 - a.1 ≠ 0 ∨ b.2 - a.2 ≠ 0 := by
          by_contra hcon
          push_neg at hcon
          exact hba (Prod.ext (by linarith [hcon.1]) (by linarith [hcon.2]))
        rcases hne with hx | hy
        · refine ⟨(p.1 - a.1) / (b.1 - a.1), ?_⟩
          have h1 : p.1 = (p.1 - a.1) / (b.1 - a.1) * (b.1 - a.1) + a.1 := by
            field_simp
          have h2 : p.2 = (p.1 - a.1) / (b.1 - a.1) * (b.2 - a.2) + a.2 := by
            field_simp
            linear_combination h
          exact Prod.ext (by simpa using h1) (by simpa using h2)
        · refine ⟨(p.2 - a.2) / (b.2 - a.2), ?_⟩
          have h1 : p.1 = (p.2 - a.2) / (b.2 - a.2) * (b.1 - a.1) + a.1 := by
            field_simp
            linear_combination -h
          have h2 : p.2 = (p.2 - a.2) / (b.2 - a.2) * (b.2 - a.2) + a.2 := by
            field_simp
          exact Prod.ext (by simpa using h1) (by simpa using h2)
  · intro h
    rw [collinear_iff_of_mem (Set.mem_insert a {b, c})] at h
    obtain ⟨v, hv⟩ := h
    obtain ⟨rb, hb⟩ := hv b (by simp)
    obtain ⟨rc, hc⟩ := hv c (by simp)
    have hb1 : b.1 = rb * v.1 + a.1 := by rw [hb]; simp [Prod.ext_iff]
    have hb2 : b.2 = rb * v.2 + a.2 := by rw [hb]; simp [Prod.ext_iff]
    have hc1 : c.1 = rc * v.1 + a.1 := by rw [hc]; simp [Prod.ext_iff]
    have hc2 : c.2 = rc * v.2 + a.2 := by rw [hc]; simp [Prod.ext_iff]
    rw [hb1, hb2, hc1, hc2]
    ring

/-- C3: the sign of the orientation determinant classifies every
ordered point triple: positive exactly on left (counter-clockwise)
turns, negative exactly on right (clockwise) turns, and zero exactly on
collinear triples. -/
theorem orientation_sign_classifies (a b c : Point) :
    (0 < orientation a b c ↔ turnsLeft a b c) ∧
    (orientation a b c < 0 ↔ turnsRight a b c) ∧
    (orientation a b c = 0 ↔ Collinear ℚ ({a, b, c} : Set Point)) := by
  refine ⟨?_, ?_, orientation_eq_zero_iff_collinear a b c⟩
  · rw [turnsLeft, orientation_eq_dot]
  · rw [turnsRight, orientation_eq_dot]
